import Mathlib

/-!
Shallow embedding of the PyNS preconditioned Conjugate Gradient solver
(`src/solvers/nonstationary/cg.py`) and of the Tecplot export routine
(`src/display/plot/tecplot.py`), together with models of the helper
modules (`mat_vec_bnd`, `vec_vec`, `norm`, `Unknown`, `avg_x`/`cat_x`, …)
that the repository uses but whose sources are not included; those are
modelled from the specification and are marked as such.

Real numbers are modelled by the rationals (exact arithmetic); a floating
point division whose denominator is zero (which in NumPy produces an
infinity or NaN that silently poisons the rest of the computation) is
modelled by `Option`: such a computation returns `none`.
-/

attribute [local semireducible] Rat.add Rat.sub Rat.mul Rat.inv Rat.ofScientific

namespace PyNS

/-- A three-dimensional array: its shape `(nx, ny, nz)` and its contents
flattened in row-major (x-major) order, entry `(i,j,k)` living at flat
index `(i*ny + j)*nz + k`.  Models a NumPy `ndarray` of floats. -/
structure Arr where
  nx : ℕ
  ny : ℕ
  nz : ℕ
  data : List ℚ
deriving DecidableEq, Repr

/-- Entry `(i,j,k)` of an array (0 when out of range). -/
def Arr.get (v : Arr) (i j k : ℕ) : ℚ :=
  v.data.getD ((i * v.ny + j) * v.nz + k) 0

/-- Well-formedness: the flat data has exactly `nx*ny*nz` entries. -/
def Arr.wf (v : Arr) : Prop := v.data.length = v.nx * v.ny * v.nz

instance (v : Arr) : Decidable v.wf := by unfold Arr.wf; infer_instance

/-- Build an array of shape `(nx,ny,nz)` from an index function. -/
def mkArr (nx ny nz : ℕ) (f : ℕ → ℕ → ℕ → ℚ) : Arr :=
  ⟨nx, ny, nz, (List.range (nx * ny * nz)).map
    (fun t => f (t / (ny * nz)) (t / nz % ny) (t % nz))⟩

/-- Total number of cells of the array's shape: `prod(v.shape)` in the
source. -/
def prodShape (v : Arr) : ℕ := v.nx * v.ny * v.nz

/-- Elementwise subtraction (`a - b` on same-shaped NumPy arrays); the
shape is taken from the first operand. -/
def Arr.sub (x y : Arr) : Arr :=
  ⟨x.nx, x.ny, x.nz, List.zipWith (· - ·) x.data y.data⟩

/-- Elementwise addition (`a + b` on same-shaped NumPy arrays). -/
def Arr.add (x y : Arr) : Arr :=
  ⟨x.nx, x.ny, x.nz, List.zipWith (· + ·) x.data y.data⟩

/-- Scalar times array (`c * a`). -/
def Arr.smul (c : ℚ) (x : Arr) : Arr :=
  ⟨x.nx, x.ny, x.nz, x.data.map (fun t => c * t)⟩

/-- An array of zeros shaped like `x` (`zeros(x.shape)`). -/
def zerosLike (x : Arr) : Arr :=
  ⟨x.nx, x.ny, x.nz, List.replicate x.data.length 0⟩

/-- Modelled from the spec: `vec_vec(a, b)` (module `pyns.solvers.vec_vec`,
source not included) is the sum of the elementwise product over all
interior cells. -/
def vec_vec (x y : Arr) : ℚ := (List.zipWith (· * ·) x.data y.data).sum

/-- Elementwise division `r / c` (`z[:,:,:] = r[:,:,:] / a.C[:,:,:]` in the
source).  A zero entry of the divisor makes the float result an infinity
or NaN, modelled here as `none`. -/
def ewDiv (r c : Arr) : Option Arr :=
  if 0 ∈ c.data then none
  else some ⟨r.nx, r.ny, r.nz, List.zipWith (· / ·) r.data c.data⟩

/-- Scalar division; `none` models the undefined float division by zero. -/
def qdiv (a b : ℚ) : Option ℚ := if b = 0 then none else some (a / b)

/-- Modelled from the spec: `norm(r) < tol`, where `norm(a)` (module
`pyns.solvers.norm`, source not included) is the square root of
`vec_vec(a, a)`.  Since `vec_vec(r, r)` is a sum of squares and hence
nonnegative, `sqrt(vec_vec(r,r)) < tol` holds exactly when `0 < tol` and
`vec_vec(r,r) < tol^2`; the lemma `normLt_correct` below justifies this. -/
def normLt (r : Arr) (tol : ℚ) : Bool :=
  decide (0 < tol ∧ vec_vec r r < tol ^ 2)

/-- The five canonical grid positions of a field. -/
inductive Pos where
  | C | X | Y | Z | N
deriving DecidableEq, Repr

/-- The six faces of the grid. -/
inductive Face where
  | W | E | S | N | B | T
deriving DecidableEq, Repr

/-- Boundary-condition kinds (the numeric constants DIRICHLET, NEUMANN,
OUTLET of `pyns.constants`, source not included). -/
inductive BType where
  | dirichlet | neumann | outlet
deriving DecidableEq, Repr

/-- Boundary data of one face: condition kind and a value plane (an array
whose extent along the face's axis is 1). -/
structure Bnd where
  typ : BType
  val : Arr
deriving DecidableEq, Repr

/-- The six per-face boundary records of a field. -/
structure BndSet where
  W : Bnd
  E : Bnd
  S : Bnd
  N : Bnd
  B : Bnd
  T : Bnd
deriving DecidableEq, Repr

/-- Per-axis periodicity flags. -/
structure Per where
  x : Bool
  y : Bool
  z : Bool
deriving DecidableEq, Repr

/-- Modelled from the spec: the "Unknown" grid field (module
`pyns.discretization.Unknown`, source not included): a value array at a
grid position, a previous-time-step snapshot, per-face boundary data and
periodicity flags. -/
structure Unknown where
  name : String
  pos : Pos
  val : Arr
  old : Arr
  bnd : BndSet
  per : Per
deriving DecidableEq, Repr

/-- The stencil operator ("Matrix"): a central coefficient array `C` and
one coefficient array per face direction, all shaped like the field. -/
structure Matrix where
  C : Arr
  W : Arr
  E : Arr
  S : Arr
  N : Arr
  B : Arr
  T : Arr
deriving DecidableEq, Repr

/-- Modelled from the spec: the value the stencil couples to in direction
`west` at cell `(i,j,k)`: the interior neighbor when it exists, otherwise
a value derived from the face's boundary condition (Dirichlet: the
prescribed boundary value; Neumann: the adjacent interior value itself;
periodic axis: wrap-around to the opposite interior plane). -/
def nbrW (u : Unknown) (i j k : ℕ) : ℚ :=
  if 0 < i then u.val.get (i - 1) j k
  else if u.per.x then u.val.get (u.val.nx - 1) j k
  else match u.bnd.W.typ with
    | BType.neumann => u.val.get i j k
    | _ => u.bnd.W.val.get 0 j k

/-- Eastern coupled value, by the same rules as `nbrW`. -/
def nbrE (u : Unknown) (i j k : ℕ) : ℚ :=
  if i + 1 < u.val.nx then u.val.get (i + 1) j k
  else if u.per.x then u.val.get 0 j k
  else match u.bnd.E.typ with
    | BType.neumann => u.val.get i j k
    | _ => u.bnd.E.val.get 0 j k

/-- Southern coupled value. -/
def nbrS (u : Unknown) (i j k : ℕ) : ℚ :=
  if 0 < j then u.val.get i (j - 1) k
  else if u.per.y then u.val.get i (u.val.ny - 1) k
  else match u.bnd.S.typ with
    | BType.neumann => u.val.get i j k
    | _ => u.bnd.S.val.get i 0 k

/-- Northern coupled value. -/
def nbrN (u : Unknown) (i j k : ℕ) : ℚ :=
  if j + 1 < u.val.ny then u.val.get i (j + 1) k
  else if u.per.y then u.val.get i 0 k
  else match u.bnd.N.typ with
    | BType.neumann => u.val.get i j k
    | _ => u.bnd.N.val.get i 0 k

/-- Bottom coupled value. -/
def nbrB (u : Unknown) (i j k : ℕ) : ℚ :=
  if 0 < k then u.val.get i j (k - 1)
  else if u.per.z then u.val.get i j (u.val.nz - 1)
  else match u.bnd.B.typ with
    | BType.neumann => u.val.get i j k
    | _ => u.bnd.B.val.get i j 0

/-- Top coupled value. -/
def nbrT (u : Unknown) (i j k : ℕ) : ℚ :=
  if k + 1 < u.val.nz then u.val.get i j (k + 1)
  else if u.per.z then u.val.get i j 0
  else match u.bnd.T.typ with
    | BType.neumann => u.val.get i j k
    | _ => u.bnd.T.val.get i j 0

/-- Modelled from the spec: `mat_vec_bnd(a, u)` (module
`pyns.solvers.mat_vec_bnd`, source not included): for every interior cell
the result is `center*value` plus the sum over the six directions of the
direction's coefficient times the boundary-aware coupled value.  A pure
function; it never mutates its inputs. -/
def mat_vec_bnd (a : Matrix) (u : Unknown) : Arr :=
  mkArr u.val.nx u.val.ny u.val.nz (fun i j k =>
    a.C.get i j k * u.val.get i j k
    + a.W.get i j k * nbrW u i j k
    + a.E.get i j k * nbrE u i j k
    + a.S.get i j k * nbrS u i j k
    + a.N.get i j k * nbrN u i j k
    + a.B.get i j k * nbrB u i j k
    + a.T.get i j k * nbrT u i j k)

/-- The state carried by the cg iteration loop: the unknown being solved
(whose `val` is the `x` of the source, mutated in place), the local
direction field `p`, the residual `r`, and `rho`, which at the start of
an iteration holds the previous iteration's `rho` (`rho_old` in the
source; it is written at the end of every continuing iteration and is
never read on iteration 1). -/
structure St where
  phi : Unknown
  p : Unknown
  r : Arr
  rho : ℚ
deriving DecidableEq, Repr

/-- The search-direction update (lines 77-87 of `cg.py`): on iteration 1
the direction is `p = z`; on later iterations `beta = rho / rho_old` and
`p = z + beta * p`. -/
def dirUpdate (i : ℕ) (z pOld : Arr) (rhoNew rhoOld : ℚ) : Option Arr :=
  if i = 1 then some z
  else (qdiv rhoNew rhoOld).map (fun beta => Arr.add z (Arr.smul beta pOld))

/-- One execution of the body of cg's iteration loop at loop index `i`
(lines 68-95 of `cg.py`): `z = r / a.C`; `rho = vec_vec(r, z)`; `p = z`
on iteration 1 and `p = z + beta*p` with `beta = rho / rho_old`
afterwards; `q = mat_vec_bnd(a, p)`; `alfa = rho / vec_vec(p.val, q)`;
`x += alfa*p`; `r -= alfa*q`.  `none` models a division whose float
result is undefined (infinity/NaN). -/
def bodyStep (a : Matrix) (i : ℕ) (s : St) : Option St :=
  (ewDiv s.r a.C).bind (fun z =>
    (dirUpdate i z s.p.val (vec_vec s.r z) s.rho).bind (fun pval =>
      (qdiv (vec_vec s.r z)
          (vec_vec pval (mat_vec_bnd a { s.p with val := pval }))).map
        (fun alfa =>
          { phi := { s.phi with val := Arr.add s.phi.val (Arr.smul alfa pval) }
            p := { s.p with val := pval }
            r := Arr.sub s.r
              (Arr.smul alfa (mat_vec_bnd a { s.p with val := pval }))
            rho := vec_vec s.r z })))

/-- The iteration loop of cg (`for i in range(1, max_iter)` in the
source), as a recursion on the number of remaining loop indices: run the
body, return immediately when the residual norm has dropped below the
tolerance (`if res < tol: return x`), otherwise carry `rho` forward as
`rho_old` and continue.  Returns the final state together with the number
of loop-body executions performed. -/
def cgLoop (a : Matrix) (tol : ℚ) : ℕ → ℕ → St → Option (St × ℕ)
  | 0, _, s => some (s, 0)
  | fuel + 1, i, s =>
    (bodyStep a i s).bind (fun s1 =>
      if normLt s1.r tol then some (s1, 1)
      else (cgLoop a tol fuel (i + 1) s1).map (fun t => (t.1, t.2 + 1)))

/-- The effective iteration bound: `max_iter` as passed, except that the
sentinel `-1` defaults it to `prod(phi.val.shape)` (lines 60-61 of the
source). -/
def effMaxIter (phi : Unknown) (maxIter : ℤ) : ℤ :=
  if maxIter = -1 then (prodShape phi.val : ℤ) else maxIter

/-- Modelled from the spec: the local direction field `p` created by
`Unknown("vec_p", phi.pos, x.shape, -1, per=phi.per, verbose=False)`
(the `Unknown` constructor is not among the included sources): a fresh
field at `phi`'s position with a zero value array, `phi`'s periodicity
flags and outlet-tagged zero boundary planes. -/
def mkP (phi : Unknown) : Unknown :=
  { name := "vec_p"
    pos := phi.pos
    val := zerosLike phi.val
    old := zerosLike phi.val
    bnd :=
      { W := ⟨BType.outlet, mkArr 1 phi.val.ny phi.val.nz (fun _ _ _ => 0)⟩
        E := ⟨BType.outlet, mkArr 1 phi.val.ny phi.val.nz (fun _ _ _ => 0)⟩
        S := ⟨BType.outlet, mkArr phi.val.nx 1 phi.val.nz (fun _ _ _ => 0)⟩
        N := ⟨BType.outlet, mkArr phi.val.nx 1 phi.val.nz (fun _ _ _ => 0)⟩
        B := ⟨BType.outlet, mkArr phi.val.nx phi.val.ny 1 (fun _ _ _ => 0)⟩
        T := ⟨BType.outlet, mkArr phi.val.nx phi.val.ny 1 (fun _ _ _ => 0)⟩ }
    per := phi.per }

/-- The initial loop state of a cg call: `r = b - mat_vec_bnd(a, phi)`
assigned into an array shaped like `x` (line 54), a fresh direction field
`p`, and an uninitialized `rho_old` (modelled as 0; it is never read
before it is first written, since iteration 1 does not use it). -/
def initSt (a : Matrix) (phi : Unknown) (b : Arr) : St :=
  { phi := phi
    p := mkP phi
    r := Arr.sub b (mat_vec_bnd a phi)
    rho := 0 }

/-- A full cg run: the loop over `i in range(1, max_iter)` started at
index 1 with `(max_iter - 1)` available loop indices, returning the final
state and the number of iterations executed. -/
def cgRun (a : Matrix) (phi : Unknown) (b : Arr) (tol : ℚ) (maxIter : ℤ) :
    Option (St × ℕ) :=
  cgLoop a tol (effMaxIter phi maxIter - 1).toNat 1 (initSt a phi b)

/-- `cg(a, phi, b, tol, max_iter)`: the solver's observable result, the
returned solution array `x` together with the post-call state of `phi`
(whose value array `x` aliases).  `none` models a run poisoned by an
undefined float division. -/
def cg (a : Matrix) (phi : Unknown) (b : Arr) (tol : ℚ) (maxIter : ℤ) :
    Option (Arr × Unknown) :=
  (cgRun a phi b tol maxIter).map (fun sn => (sn.1.phi.val, sn.1.phi))

/-- The plain iterated recurrence: the loop body applied `fuel` times from
loop index `i`, with no convergence test at all.  Used to state that a
non-converging run returns the bare best-effort iterate. -/
def bodyIterN (a : Matrix) : ℕ → ℕ → St → Option St
  | 0, _, s => some s
  | fuel + 1, i, s => (bodyStep a i s).bind (bodyIterN a fuel (i + 1))

/-! ### Concrete fixtures used by witnesses and counterexamples -/

/-- A 1×1×1 array holding a single value. -/
def oneArr (q : ℚ) : Arr := ⟨1, 1, 1, [q]⟩

/-- A zero-valued outlet boundary plane for a 1×1×1 field. -/
def exBnd : Bnd := ⟨BType.outlet, oneArr 0⟩

/-- Boundary set of the 1×1×1 example field. -/
def exBS : BndSet := ⟨exBnd, exBnd, exBnd, exBnd, exBnd, exBnd⟩

/-- A 1×1×1 example unknown with initial value `q`. -/
def exPhi (q : ℚ) : Unknown :=
  ⟨"t", Pos.C, oneArr q, oneArr 0, exBS, ⟨false, false, false⟩⟩

/-- The 1×1×1 identity-like operator: center 1, all neighbors 0. -/
def exId : Matrix :=
  ⟨oneArr 1, oneArr 0, oneArr 0, oneArr 0, oneArr 0, oneArr 0, oneArr 0⟩

/-- A 1×1×1 operator with center 2, all neighbors 0 (the system `2x = b`). -/
def exA2 : Matrix :=
  ⟨oneArr 2, oneArr 0, oneArr 0, oneArr 0, oneArr 0, oneArr 0, oneArr 0⟩

/-- The state after one cg iteration on the system `2x = 1` from `x = 0`. -/
def exS1 : St :=
  { phi := { exPhi 0 with val := oneArr (1/2) }
    p := { mkP (exPhi 0) with val := oneArr (1/2) }
    r := oneArr 0
    rho := 1/2 }

/-! ### Claim theorems -/

/-- Claim C10: on the valid input where the operator is the identity
(center 1, neighbors 0) and the initial guess already solves the system
(`phi.val = b`), the initial residual is zero, iteration 1 computes
`z = 0`, `rho = vec_vec(r, z) = 0`, `p = 0`, `q = mat_vec_bnd(a, p) = 0`,
so the step-size division `alfa = rho / vec_vec(p, q)` has a zero
denominator (`0/0`, undefined); the iteration body and the whole solve
are poisoned instead of returning the already-exact guess. -/
theorem c10_zero_step_denominator :
    (initSt exId (exPhi 3) (oneArr 3)).r = oneArr 0 ∧
    ewDiv (initSt exId (exPhi 3) (oneArr 3)).r exId.C = some (oneArr 0) ∧
    vec_vec (initSt exId (exPhi 3) (oneArr 3)).r (oneArr 0) = 0 ∧
    mat_vec_bnd exId { mkP (exPhi 3) with val := oneArr 0 } = oneArr 0 ∧
    vec_vec (oneArr 0) (mat_vec_bnd exId { mkP (exPhi 3) with val := oneArr 0 }) = 0 ∧
    bodyStep exId 1 (initSt exId (exPhi 3) (oneArr 3)) = none ∧
    cg exId (exPhi 3) (oneArr 3) (1/1000) 5 = none := by
  decide

/-- The loop never executes more bodies than it has loop indices. -/
theorem cgLoop_steps_le (a : Matrix) (tol : ℚ) :
    ∀ f i s s2 n, cgLoop a tol f i s = some (s2, n) → n ≤ f := by
  intro f
  induction f with
  | zero =>
      intro i s s2 n h
      simp only [cgLoop, Option.some.injEq, Prod.mk.injEq] at h
      omega
  | succ f ih =>
      intro i s s2 n h
      simp only [cgLoop, Option.bind_eq_some] at h
      obtain ⟨s1, -, h2⟩ := h
      by_cases hn : normLt s1.r tol
      · simp only [hn, if_true, Option.some.injEq, Prod.mk.injEq] at h2
        omega
      · simp only [hn, Bool.false_eq_true, if_false, Option.map_eq_some'] at h2
        obtain ⟨t, h3, h4⟩ := h2
        have := ih (i + 1) s1 t.1 t.2 (by rw [h3])
        simp only [Prod.mk.injEq] at h4
        omega

/-- Claim C2 (amended): the iteration loop `for i in range(1, max_iter)`
runs over `i = 1 .. max_iter - 1`, so the solver performs at most
`max_iter - 1` CG update steps before giving up (at most `N - 1` under
the default `max_iter = prod(phi.val.shape)`), not `max_iter`. -/
theorem c2_iteration_count (a : Matrix) (phi : Unknown) (b : Arr)
    (tol : ℚ) (m : ℤ) (n : ℕ)
    (h : (cgRun a phi b tol m).map Prod.snd = some n) :
    n ≤ (effMaxIter phi m - 1).toNat := by
  unfold cgRun at h
  cases hr : cgLoop a tol (effMaxIter phi m - 1).toNat 1 (initSt a phi b) with
  | none => rw [hr] at h; simp at h
  | some sn =>
      rw [hr] at h
      simp at h
      subst h
      exact cgLoop_steps_le a tol _ 1 _ sn.1 sn.2 (by rw [← hr])

/-- Witness for C2 (amended): the run on the system `2x = 1` with
`max_iter = 2` and an unreachable tolerance performs 1 step, within the
bound `max_iter - 1 = 1`. -/
theorem c2_iteration_count_witness :
    1 ≤ (effMaxIter (exPhi 0) 2 - 1).toNat :=
  c2_iteration_count exA2 (exPhi 0) (oneArr 1) 0 2 1 (by decide)

/-- Counterexample to C2 as stated: on the system `2x = 1` with
`max_iter = 2` and tolerance 0 (so the convergence exit never fires,
since a norm is nonnegative), the loop performs exactly one update step,
not the two steps that running `i = 1 .. max_iter` inclusive would
perform. -/
theorem c2_counterexample :
    (cgRun exA2 (exPhi 0) (oneArr 1) 0 2).map Prod.snd = some 1 ∧ (1 : ℕ) ≠ 2 := by
  decide

/-- Claim C3: as soon as the post-update residual satisfies
`norm(r) < tol`, the loop returns that iteration's `x` with no further
iteration executed (exactly one body run charged at this level); and
whenever `norm(r) >= tol` and iteration indices remain, the loop
continues with the next iteration. -/
theorem c3_early_exit (a : Matrix) (tol : ℚ) (f i : ℕ) (s s1 : St)
    (h : bodyStep a i s = some s1) :
    (normLt s1.r tol = true → cgLoop a tol (f + 1) i s = some (s1, 1)) ∧
    (normLt s1.r tol = false →
      cgLoop a tol (f + 1) i s =
        (cgLoop a tol f (i + 1) s1).map (fun t => (t.1, t.2 + 1))) := by
  constructor
  · intro hn
    simp [cgLoop, h, hn]
  · intro hn
    simp [cgLoop, h, hn]

/-- Witness for C3: on `2x = 1` from `x = 0` with tolerance 1, the first
iteration's residual is 0, the convergence test fires and the loop
returns immediately with one body executed. -/
theorem c3_early_exit_witness :
    cgLoop exA2 1 1 1 (initSt exA2 (exPhi 0) (oneArr 1)) = some (exS1, 1) :=
  (c3_early_exit exA2 1 0 1 (initSt exA2 (exPhi 0) (oneArr 1)) exS1
    (by decide)).1 (by decide)

/-- With an unreachable tolerance the loop is the bare iterated body. -/
theorem cgLoop_no_exit (a : Matrix) (tol : ℚ) (htol : tol ≤ 0) :
    ∀ f i s, cgLoop a tol f i s =
      (bodyIterN a f i s).map (fun s2 => (s2, f)) := by
  intro f
  induction f with
  | zero => intro i s; rfl
  | succ f ih =>
      intro i s
      simp only [cgLoop, bodyIterN]
      cases hb : bodyStep a i s with
      | none => rfl
      | some s1 =>
          have hn : normLt s1.r tol = false := by
            simp only [normLt, decide_eq_false_iff_not]
            rintro ⟨h1, -⟩
            exact absurd (lt_of_lt_of_le h1 htol) (lt_irrefl 0)
          simp only [Option.some_bind, hn, Bool.false_eq_true, if_false, ih]
          cases bodyIterN a f (i + 1) s1 with
          | none => rfl
          | some t => rfl

/-- Claim C4: when the loop exhausts its iteration budget without the
residual dropping below the tolerance (here: an unreachable tolerance),
cg returns the best-effort solution through the very same channel as a
converged run — its result is exactly the bare iterated recurrence's
final `x`, with no exception, error value or status flag distinguishing
non-convergence. -/
theorem c4_silent_nonconvergence (a : Matrix) (phi : Unknown) (b : Arr)
    (tol : ℚ) (m : ℤ) (htol : tol ≤ 0) :
    cg a phi b tol m =
      (bodyIterN a (effMaxIter phi m - 1).toNat 1 (initSt a phi b)).map
        (fun s => (s.phi.val, s.phi)) := by
  unfold cg cgRun
  rw [cgLoop_no_exit a tol htol]
  cases bodyIterN a (effMaxIter phi m - 1).toNat 1 (initSt a phi b) with
  | none => rfl
  | some s => rfl

/-- Witness for C4: the non-converging run on `2x = 1` with tolerance 0
and `max_iter = 2` returns exactly the bare one-step iterate. -/
theorem c4_silent_nonconvergence_witness :
    cg exA2 (exPhi 0) (oneArr 1) 0 2 =
      (bodyIterN exA2 (effMaxIter (exPhi 0) 2 - 1).toNat 1
        (initSt exA2 (exPhi 0) (oneArr 1))).map (fun s => (s.phi.val, s.phi)) :=
  c4_silent_nonconvergence exA2 (exPhi 0) (oneArr 1) 0 2 (le_refl 0)

/-- Claim C1: every executed iteration of cg follows the preconditioned
CG recurrence: with `z` the preconditioned residual, `rho = vec_vec(r, z)`
computed from the residual current at the start of the iteration, the
direction is `p = z` on iteration 1 and `p = z + beta * p` with
`beta = rho / rho_old` (the previous iteration's `rho`, carried in the
state) on later iterations; the step size is
`alfa = rho / vec_vec(p, q)` with `q = mat_vec_bnd(a, p)`; and then
`x += alfa * p`, `r -= alfa * q`, and this iteration's `rho` is carried
forward. -/
theorem c1_cg_recurrence (a : Matrix) (i : ℕ) (s s1 : St)
    (h : bodyStep a i s = some s1) :
    ∃ z, ewDiv s.r a.C = some z ∧
      ∃ pv, ((i = 1 ∧ pv = z) ∨
             (i ≠ 1 ∧ ∃ beta, qdiv (vec_vec s.r z) s.rho = some beta ∧
                        pv = Arr.add z (Arr.smul beta s.p.val))) ∧
        ∃ alfa, qdiv (vec_vec s.r z)
            (vec_vec pv (mat_vec_bnd a { s.p with val := pv })) = some alfa ∧
          s1.phi = { s.phi with
            val := Arr.add s.phi.val (Arr.smul alfa pv) } ∧
          s1.r = Arr.sub s.r
            (Arr.smul alfa (mat_vec_bnd a { s.p with val := pv })) ∧
          s1.rho = vec_vec s.r z ∧
          s1.p = { s.p with val := pv } := by
  simp only [bodyStep, Option.bind_eq_some, Option.map_eq_some'] at h
  obtain ⟨z, hz, pv, hpv, alfa, halfa, hst⟩ := h
  refine ⟨z, hz, pv, ?_, alfa, halfa, ?_, ?_, ?_, ?_⟩
  · unfold dirUpdate at hpv
    by_cases hi : i = 1
    · rw [if_pos hi] at hpv
      exact Or.inl ⟨hi, ((Option.some.injEq _ _).mp hpv).symm⟩
    · rw [if_neg hi, Option.map_eq_some'] at hpv
      obtain ⟨beta, hb, hpe⟩ := hpv
      exact Or.inr ⟨hi, beta, hb, hpe.symm⟩
  · rw [← hst]
  · rw [← hst]
  · rw [← hst]
  · rw [← hst]

/-- Witness for C1: the recurrence instantiated on the first iteration of
the solve of `2x = 1` from `x = 0`. -/
theorem c1_cg_recurrence_witness :
    ∃ z, ewDiv (initSt exA2 (exPhi 0) (oneArr 1)).r exA2.C = some z ∧
      ∃ pv, ((1 = 1 ∧ pv = z) ∨
             (1 ≠ 1 ∧ ∃ beta,
                qdiv (vec_vec (initSt exA2 (exPhi 0) (oneArr 1)).r z)
                  (initSt exA2 (exPhi 0) (oneArr 1)).rho = some beta ∧
                pv = Arr.add z
                  (Arr.smul beta (initSt exA2 (exPhi 0) (oneArr 1)).p.val))) ∧
        ∃ alfa, qdiv (vec_vec (initSt exA2 (exPhi 0) (oneArr 1)).r z)
            (vec_vec pv (mat_vec_bnd exA2
              { (initSt exA2 (exPhi 0) (oneArr 1)).p with val := pv })) =
              some alfa ∧
          exS1.phi = { (initSt exA2 (exPhi 0) (oneArr 1)).phi with
            val := Arr.add (initSt exA2 (exPhi 0) (oneArr 1)).phi.val
              (Arr.smul alfa pv) } ∧
          exS1.r = Arr.sub (initSt exA2 (exPhi 0) (oneArr 1)).r
            (Arr.smul alfa (mat_vec_bnd exA2
              { (initSt exA2 (exPhi 0) (oneArr 1)).p with val := pv })) ∧
          exS1.rho = vec_vec (initSt exA2 (exPhi 0) (oneArr 1)).r z ∧
          exS1.p = { (initSt exA2 (exPhi 0) (oneArr 1)).p with val := pv } :=
  c1_cg_recurrence exA2 1 (initSt exA2 (exPhi 0) (oneArr 1)) exS1 (by decide)

/-- Dividing elementwise by nonzero entries and multiplying back is the
identity: the elementwise Jacobi division is well-defined. -/
theorem zipWith_div_cancel : ∀ (r c : List ℚ), (∀ x ∈ c, x ≠ 0) →
    r.length ≤ c.length →
    List.zipWith (· * ·) (List.zipWith (· / ·) r c) c = r := by
  intro r
  induction r with
  | nil => intro c _ _; simp
  | cons x rs ih =>
      intro c hc hl
      cases c with
      | nil => simp at hl
      | cons y cs =>
          simp only [List.zipWith_cons_cons, List.cons.injEq]
          refine ⟨div_mul_cancel₀ x (hc y (List.mem_cons_self y cs)), ?_⟩
          exact ih cs (fun t ht => hc t (List.mem_cons_of_mem y ht))
            (by simpa using hl)

/-- Claim C6: each iteration computes the preconditioned residual by the
unconditional elementwise division `z = r / a.C`: an invalid division
poisons the iteration with no detection or recovery (first conjunct), and
under the caller-guaranteed precondition that every center entry is
nonzero the division is well-defined — it succeeds and multiplying back
by the diagonal recovers the residual exactly (second conjunct). -/
theorem c6_jacobi_precondition (a : Matrix) (i : ℕ) (s : St) :
    (ewDiv s.r a.C = none → bodyStep a i s = none) ∧
    ((∀ c ∈ a.C.data, c ≠ 0) → s.r.data.length ≤ a.C.data.length →
      ∃ z, ewDiv s.r a.C = some z ∧
        z.data = List.zipWith (· / ·) s.r.data a.C.data ∧
        List.zipWith (· * ·) z.data a.C.data = s.r.data) := by
  constructor
  · intro h
    simp [bodyStep, h]
  · intro hC hl
    have h0 : ¬ (0 : ℚ) ∈ a.C.data := fun h0 => hC 0 h0 rfl
    refine ⟨⟨s.r.nx, s.r.ny, s.r.nz,
      List.zipWith (· / ·) s.r.data a.C.data⟩, ?_, rfl, ?_⟩
    · rw [ewDiv, if_neg h0]
    · exact zipWith_div_cancel s.r.data a.C.data hC hl

/-- Witness for C6: the nonzero-diagonal case on the system `2x = 1`. -/
theorem c6_jacobi_precondition_witness :
    ∃ z, ewDiv (initSt exA2 (exPhi 0) (oneArr 1)).r exA2.C = some z ∧
      z.data = List.zipWith (· / ·)
        (initSt exA2 (exPhi 0) (oneArr 1)).r.data exA2.C.data ∧
      List.zipWith (· * ·) z.data exA2.C.data =
        (initSt exA2 (exPhi 0) (oneArr 1)).r.data :=
  (c6_jacobi_precondition exA2 1 (initSt exA2 (exPhi 0) (oneArr 1))).2
    (by decide) (by decide)

/-- The loop body rewrites only the `val` field of the solved field. -/
theorem bodyStep_phi_frame (a : Matrix) (i : ℕ) (s s1 : St)
    (h : bodyStep a i s = some s1) :
    s1.phi.old = s.phi.old ∧ s1.phi.bnd = s.phi.bnd ∧
    s1.phi.pos = s.phi.pos ∧ s1.phi.name = s.phi.name ∧
    s1.phi.per = s.phi.per := by
  simp only [bodyStep, Option.bind_eq_some, Option.map_eq_some'] at h
  obtain ⟨z, -, pv, -, alfa, -, hst⟩ := h
  rw [← hst]
  exact ⟨rfl, rfl, rfl, rfl, rfl⟩

/-- The loop rewrites only the `val` field of the solved field. -/
theorem cgLoop_phi_frame (a : Matrix) (tol : ℚ) :
    ∀ f i s s2 n, cgLoop a tol f i s = some (s2, n) →
    s2.phi.old = s.phi.old ∧ s2.phi.bnd = s.phi.bnd ∧
    s2.phi.pos = s.phi.pos ∧ s2.phi.name = s.phi.name ∧
    s2.phi.per = s.phi.per := by
  intro f
  induction f with
  | zero =>
      intro i s s2 n h
      simp only [cgLoop, Option.some.injEq, Prod.mk.injEq] at h
      rw [← h.1]
      exact ⟨rfl, rfl, rfl, rfl, rfl⟩
  | succ f ih =>
      intro i s s2 n h
      simp only [cgLoop, Option.bind_eq_some] at h
      obtain ⟨s1, hb, h2⟩ := h
      have hf1 := bodyStep_phi_frame a i s s1 hb
      by_cases hn : normLt s1.r tol
      · simp only [hn, if_true, Option.some.injEq, Prod.mk.injEq] at h2
        rw [← h2.1]
        exact hf1
      · simp only [hn, Bool.false_eq_true, if_false, Option.map_eq_some'] at h2
        obtain ⟨t, h3, h4⟩ := h2
        have hf2 := ih (i + 1) s1 t.1 t.2 (by rw [h3])
        simp only [Prod.mk.injEq] at h4
        rw [← h4.1]
        exact ⟨hf2.1.trans hf1.1, hf2.2.1.trans hf1.2.1,
          hf2.2.2.1.trans hf1.2.2.1, hf2.2.2.2.1.trans hf1.2.2.2.1,
          hf2.2.2.2.2.trans hf1.2.2.2.2⟩

/-- Claim C7: whatever cg returns, the returned solution array is exactly
the value array of the post-call field (the source returns `x`, which is
`phi.val`'s storage), and among the field's components only `val` has
been rewritten: `old`, `bnd`, `pos`, `name` and the periodicity flags are
those of the field passed in.  (The operator `a` and the right-hand side
`b` are never assigned to by the solver and are threaded read-only in
this embedding.) -/
theorem c7_frame (a : Matrix) (phi : Unknown) (b : Arr) (tol : ℚ) (m : ℤ)
    (x : Arr) (phi1 : Unknown) (h : cg a phi b tol m = some (x, phi1)) :
    x = phi1.val ∧ phi1.old = phi.old ∧ phi1.bnd = phi.bnd ∧
    phi1.pos = phi.pos ∧ phi1.name = phi.name ∧ phi1.per = phi.per := by
  simp only [cg, Option.map_eq_some'] at h
  obtain ⟨t, hrun, hx⟩ := h
  simp only [Prod.mk.injEq] at hx
  have hfr := cgLoop_phi_frame a tol _ 1 (initSt a phi b) t.1 t.2
    (by rw [← hrun]; rfl)
  rw [← hx.1, ← hx.2]
  exact ⟨rfl, hfr.1, hfr.2.1, hfr.2.2.1, hfr.2.2.2.1, hfr.2.2.2.2⟩

/-- The post-call field of the converged solve of `2x = 1`. -/
def exPhiOut : Unknown := { exPhi 0 with val := oneArr (1/2) }

/-- Witness for C7: the solve of `2x = 1` with tolerance 1 converges on
iteration 1 and returns its field with only `val` rewritten. -/
theorem c7_frame_witness :
    oneArr (1/2) = exPhiOut.val ∧ exPhiOut.old = (exPhi 0).old ∧
    exPhiOut.bnd = (exPhi 0).bnd ∧ exPhiOut.pos = (exPhi 0).pos ∧
    exPhiOut.name = (exPhi 0).name ∧ exPhiOut.per = (exPhi 0).per :=
  c7_frame exA2 (exPhi 0) (oneArr 1) 1 5 (oneArr (1/2)) exPhiOut (by decide)

/-! ### Arithmetic of the flattened index and identity-operator lemmas -/

/-- Recomposing a flat index from its (x, y, z) decomposition. -/
theorem flatIndex_decomp (t ny nz : ℕ) :
    ((t / (ny * nz)) * ny + t / nz % ny) * nz + t % nz = t := by
  have h1 : t / nz / ny = t / (ny * nz) := by
    rw [Nat.div_div_eq_div_mul, Nat.mul_comm]
  have h2 : t / nz / ny * ny + t / nz % ny = t / nz := by
    rw [Nat.mul_comm]; exact Nat.div_add_mod (t / nz) ny
  have h3 : t / nz * nz + t % nz = t := by
    rw [Nat.mul_comm]; exact Nat.div_add_mod t nz
  calc ((t / (ny * nz)) * ny + t / nz % ny) * nz + t % nz
      = (t / nz) * nz + t % nz := by rw [← h1, h2]
    _ = t := h3

/-- An in-range (i, j, k) triple flattens to an in-range index. -/
theorem flatIndex_lt (i j k nx ny nz : ℕ) (hi : i < nx) (hj : j < ny)
    (hk : k < nz) : (i * ny + j) * nz + k < nx * ny * nz := by
  have h1 : i * ny + j < nx * ny := by
    calc i * ny + j < i * ny + ny := by omega
      _ = (i + 1) * ny := by ring
      _ ≤ nx * ny := Nat.mul_le_mul_right ny (by omega)
  calc (i * ny + j) * nz + k < (i * ny + j) * nz + nz := by omega
    _ = (i * ny + j + 1) * nz := by ring
    _ ≤ nx * ny * nz := Nat.mul_le_mul_right nz (by omega)

/-- Two index functions agreeing on the shape build the same array. -/
theorem mkArr_congr (nx ny nz : ℕ) (f g : ℕ → ℕ → ℕ → ℚ)
    (h : ∀ i j k, i < nx → j < ny → k < nz → f i j k = g i j k) :
    mkArr nx ny nz f = mkArr nx ny nz g := by
  simp only [mkArr]
  congr 1
  apply List.map_congr_left
  intro t ht
  rw [List.mem_range] at ht
  have hyz : 0 < ny * nz := by
    rcases Nat.eq_zero_or_pos (ny * nz) with h0 | h0
    · rw [Nat.mul_assoc, h0, Nat.mul_zero] at ht; omega
    · exact h0
  have hny : 0 < ny :=
    Nat.pos_of_ne_zero (fun e => by rw [e, Nat.zero_mul] at hyz; omega)
  have hnz : 0 < nz :=
    Nat.pos_of_ne_zero (fun e => by rw [e, Nat.mul_zero] at hyz; omega)
  apply h
  · rw [Nat.div_lt_iff_lt_mul hyz, ← Nat.mul_assoc]
    exact ht
  · exact Nat.mod_lt _ hny
  · exact Nat.mod_lt _ hnz

/-- Rebuilding a well-formed array from its own entries is the identity. -/
theorem mkArr_get_self (v : Arr) (hwf : v.wf) :
    mkArr v.nx v.ny v.nz (fun i j k => v.get i j k) = v := by
  obtain ⟨nx, ny, nz, data⟩ := v
  simp only [Arr.wf] at hwf
  simp only [mkArr, Arr.get]
  congr 1
  apply List.ext_getElem
  · simp [hwf]
  · intro t h1 h2
    simp only [List.getElem_map, List.getElem_range]
    rw [flatIndex_decomp]
    exact List.getD_eq_getElem data 0 h2

/-- Looking anywhere into an all-zero list gives zero. -/
theorem getD_zero_of_all_zero (l : List ℚ) (h : ∀ x ∈ l, x = 0) (n : ℕ) :
    l.getD n 0 = 0 := by
  rw [List.getD_eq_getElem?_getD]
  cases hl : l[n]? with
  | none => rfl
  | some v => exact h v (List.getElem?_mem hl)

/-- Looking in range into an all-one list gives one. -/
theorem getD_one_of_all_one (l : List ℚ) (h : ∀ x ∈ l, x = 1) (n : ℕ)
    (hn : n < l.length) : l.getD n 0 = 1 := by
  rw [List.getD_eq_getElem l 0 hn]
  exact h _ (List.getElem_mem hn)

/-- For the identity-like operator — center one everywhere, all six
neighbor coefficient arrays zero — the boundary-aware product is the
field's own value array. -/
theorem mat_vec_bnd_ones (a : Matrix) (u : Unknown) (hwf : u.val.wf)
    (hCny : a.C.ny = u.val.ny) (hCnz : a.C.nz = u.val.nz)
    (hClen : prodShape u.val ≤ a.C.data.length)
    (hC : ∀ x ∈ a.C.data, x = 1)
    (hW : ∀ x ∈ a.W.data, x = 0) (hE : ∀ x ∈ a.E.data, x = 0)
    (hS : ∀ x ∈ a.S.data, x = 0) (hNn : ∀ x ∈ a.N.data, x = 0)
    (hB : ∀ x ∈ a.B.data, x = 0) (hT : ∀ x ∈ a.T.data, x = 0) :
    mat_vec_bnd a u = u.val := by
  calc mat_vec_bnd a u
      = mkArr u.val.nx u.val.ny u.val.nz (fun i j k => u.val.get i j k) := by
        rw [mat_vec_bnd]
        apply mkArr_congr
        intro i j k hi hj hk
        have hc1 : a.C.get i j k = 1 := by
          rw [Arr.get, hCny, hCnz]
          exact getD_one_of_all_one a.C.data hC _
            (lt_of_lt_of_le (flatIndex_lt i j k _ _ _ hi hj hk) hClen)
        have hw0 : a.W.get i j k = 0 := getD_zero_of_all_zero a.W.data hW _
        have he0 : a.E.get i j k = 0 := getD_zero_of_all_zero a.E.data hE _
        have hs0 : a.S.get i j k = 0 := getD_zero_of_all_zero a.S.data hS _
        have hn0 : a.N.get i j k = 0 := getD_zero_of_all_zero a.N.data hNn _
        have hb0 : a.B.get i j k = 0 := getD_zero_of_all_zero a.B.data hB _
        have ht0 : a.T.get i j k = 0 := getD_zero_of_all_zero a.T.data hT _
        rw [hc1, hw0, he0, hs0, hn0, hb0, ht0]
        ring
    _ = u.val := mkArr_get_self u.val hwf

/-! ### Elementwise list lemmas for the one-iteration exact solve -/

/-- Dividing elementwise by an all-one list is the identity. -/
theorem zipWith_div_ones : ∀ (r c : List ℚ), (∀ x ∈ c, x = 1) →
    r.length ≤ c.length → List.zipWith (· / ·) r c = r := by
  intro r
  induction r with
  | nil => intro c _ _; simp
  | cons x rs ih =>
      intro c hc hl
      cases c with
      | nil => simp at hl
      | cons y cs =>
          simp only [List.zipWith_cons_cons, List.cons.injEq]
          refine ⟨?_, ih cs (fun t ht => hc t (List.mem_cons_of_mem y ht))
            (by simpa using hl)⟩
          rw [hc y (List.mem_cons_self y cs), div_one]

/-- If all elementwise differences vanish, equal-length lists are equal. -/
theorem zipWith_sub_all_zero : ∀ (l1 l2 : List ℚ), l1.length = l2.length →
    (∀ x ∈ List.zipWith (· - ·) l1 l2, x = 0) → l1 = l2 := by
  intro l1
  induction l1 with
  | nil =>
      intro l2 h _
      cases l2 with
      | nil => rfl
      | cons y ys => simp at h
  | cons x xs ih =>
      intro l2 h hz
      cases l2 with
      | nil => simp at h
      | cons y ys =>
          simp only [List.zipWith_cons_cons, List.mem_cons, forall_eq_or_imp]
            at hz
          rw [sub_eq_zero.mp hz.1, ih ys (by simpa using h) hz.2]

/-- A sum of squares is nonnegative. -/
theorem sumsq_nonneg : ∀ l : List ℚ, 0 ≤ (List.zipWith (· * ·) l l).sum := by
  intro l
  induction l with
  | nil => simp
  | cons x xs ih =>
      simp only [List.zipWith_cons_cons, List.sum_cons]
      exact add_nonneg (mul_self_nonneg x) ih

/-- A sum of squares vanishes exactly when every entry vanishes. -/
theorem sumsq_eq_zero_iff (l : List ℚ) :
    (List.zipWith (· * ·) l l).sum = 0 ↔ ∀ x ∈ l, x = 0 := by
  induction l with
  | nil => simp
  | cons x xs ih =>
      simp only [List.zipWith_cons_cons, List.sum_cons, List.mem_cons,
        forall_eq_or_imp]
      constructor
      · intro h
        have h2 := (add_eq_zero_iff_of_nonneg (mul_self_nonneg x)
          (sumsq_nonneg xs)).mp h
        exact ⟨mul_self_eq_zero.mp h2.1, ih.mp h2.2⟩
      · rintro ⟨h1, h2⟩
        rw [h1, ih.mpr h2, mul_zero, add_zero]

/-- Adding back an elementwise difference recovers the minuend. -/
theorem zipWith_add_sub_cancel : ∀ (l1 l2 : List ℚ), l1.length = l2.length →
    List.zipWith (· + ·) l1 (List.zipWith (· - ·) l2 l1) = l2 := by
  intro l1
  induction l1 with
  | nil =>
      intro l2 h
      cases l2 with
      | nil => rfl
      | cons y ys => simp at h
  | cons x xs ih =>
      intro l2 h
      cases l2 with
      | nil => simp at h
      | cons y ys =>
          simp only [List.zipWith_cons_cons, List.cons.injEq]
          exact ⟨by ring, ih ys (by simpa using h)⟩

/-- The elementwise difference of a list with itself is all zeros. -/
theorem zipWith_sub_self : ∀ l : List ℚ,
    List.zipWith (· - ·) l l = List.replicate l.length 0 := by
  intro l
  induction l with
  | nil => rfl
  | cons x xs ih => simp [List.replicate_succ, ih]

/-- The inner product of an array minus itself with itself is zero. -/
theorem vecvec_sub_self (v : Arr) :
    vec_vec (Arr.sub v v) (Arr.sub v v) = 0 := by
  simp only [vec_vec, Arr.sub, zipWith_sub_self]
  induction v.data.length with
  | zero => rfl
  | succ n ih => simp [List.replicate_succ, ih]

/-- Scaling an array by one is the identity. -/
theorem arr_smul_one (v : Arr) : Arr.smul 1 v = v := by
  simp only [Arr.smul, one_mul, List.map_id']

/-- One loop body followed by a satisfied convergence test returns that
body's state immediately. -/
theorem cgLoop_exit (a : Matrix) (tol : ℚ) (f i : ℕ) (s s1 : St)
    (h : bodyStep a i s = some s1) (hn : normLt s1.r tol = true) :
    cgLoop a tol (f + 1) i s = some (s1, 1) := by
  simp [cgLoop, h, hn]

/-- Claim C5 (amended): for an operator whose center array is 1
everywhere and whose six neighbor coefficient arrays are all 0, for every
right-hand side `b` and every initial guess DIFFERENT from `b` (so the
initial residual is nonzero), the loop converges on iteration 1 and cg
returns exactly the right-hand side; the case `phi.val = b` must be
excluded because there iteration 1 divides `0/0` (see the
counterexample). -/
theorem c5_identity_exact_solve (a : Matrix) (phi : Unknown) (b : Arr)
    (tol : ℚ) (m : ℤ)
    (hwf : phi.val.wf)
    (hbnx : b.nx = phi.val.nx) (hbny : b.ny = phi.val.ny)
    (hbnz : b.nz = phi.val.nz)
    (hbl : b.data.length = phi.val.data.length)
    (hCny : a.C.ny = phi.val.ny) (hCnz : a.C.nz = phi.val.nz)
    (hClen : prodShape phi.val ≤ a.C.data.length)
    (hC1 : ∀ x ∈ a.C.data, x = 1)
    (hW : ∀ x ∈ a.W.data, x = 0) (hE : ∀ x ∈ a.E.data, x = 0)
    (hS : ∀ x ∈ a.S.data, x = 0) (hNn : ∀ x ∈ a.N.data, x = 0)
    (hB : ∀ x ∈ a.B.data, x = 0) (hT : ∀ x ∈ a.T.data, x = 0)
    (hx0 : phi.val ≠ b) (htol : 0 < tol) (hm : 2 ≤ effMaxIter phi m) :
    ∃ s1, cgRun a phi b tol m = some (s1, 1) ∧ s1.phi.val = b ∧
      cg a phi b tol m = some (b, s1.phi) := by
  have hmvb : mat_vec_bnd a phi = phi.val :=
    mat_vec_bnd_ones a phi hwf hCny hCnz hClen hC1 hW hE hS hNn hB hT
  -- the initial residual and its basic facts
  have hr0len : (Arr.sub b phi.val).data.length = phi.val.data.length := by
    simp [Arr.sub, hbl]
  have hr0lenC : (Arr.sub b phi.val).data.length ≤ a.C.data.length := by
    rw [hr0len, hwf]
    exact hClen
  have hzdiv : ewDiv (Arr.sub b phi.val) a.C = some (Arr.sub b phi.val) := by
    rw [ewDiv, if_neg (fun h0 => absurd (hC1 0 h0) (by norm_num))]
    rw [zipWith_div_ones (Arr.sub b phi.val).data a.C.data hC1 hr0lenC]
  have hrho_ne : vec_vec (Arr.sub b phi.val) (Arr.sub b phi.val) ≠ 0 := by
    intro h0
    simp only [vec_vec, Arr.sub] at h0
    have hall := (sumsq_eq_zero_iff _).mp h0
    have hdata : b.data = phi.val.data :=
      zipWith_sub_all_zero b.data phi.val.data hbl hall
    apply hx0
    calc phi.val = ⟨phi.val.nx, phi.val.ny, phi.val.nz, phi.val.data⟩ := rfl
      _ = b := by rw [← hbnx, ← hbny, ← hbnz, ← hdata]
  -- the direction field of iteration 1 is well-formed like the residual
  have hpwf : (Arr.sub b phi.val).wf := by
    simp only [Arr.wf, Arr.sub]
    rw [List.length_zipWith, hbl, min_self, hwf, hbnx, hbny, hbnz]
  have hq : mat_vec_bnd a { mkP phi with val := Arr.sub b phi.val } =
      Arr.sub b phi.val := by
    apply mat_vec_bnd_ones a _ hpwf _ _ _ hC1 hW hE hS hNn hB hT
    · show a.C.ny = b.ny
      rw [hbny]; exact hCny
    · show a.C.nz = b.nz
      rw [hbnz]; exact hCnz
    · show b.nx * b.ny * b.nz ≤ a.C.data.length
      rw [hbnx, hbny, hbnz]; exact hClen
  have halfa : qdiv (vec_vec (Arr.sub b phi.val) (Arr.sub b phi.val))
      (vec_vec (Arr.sub b phi.val) (Arr.sub b phi.val)) = some 1 := by
    rw [qdiv, if_neg hrho_ne, div_self hrho_ne]
  have hx1 : Arr.add phi.val (Arr.sub b phi.val) = b := by
    have hd : List.zipWith (· + ·) phi.val.data
        (List.zipWith (· - ·) b.data phi.val.data) = b.data :=
      zipWith_add_sub_cancel phi.val.data b.data hbl.symm
    calc Arr.add phi.val (Arr.sub b phi.val)
        = ⟨phi.val.nx, phi.val.ny, phi.val.nz, b.data⟩ := by
          simp only [Arr.add, Arr.sub]
          rw [hd]
      _ = b := by rw [← hbnx, ← hbny, ← hbnz]
  -- one full loop body
  have hbody : bodyStep a 1 (initSt a phi b) = some
      { phi := { phi with val := b }
        p := { mkP phi with val := Arr.sub b phi.val }
        r := Arr.sub (Arr.sub b phi.val) (Arr.sub b phi.val)
        rho := vec_vec (Arr.sub b phi.val) (Arr.sub b phi.val) } := by
    rw [bodyStep]
    simp only [initSt]
    rw [hmvb, hzdiv, Option.some_bind, dirUpdate, if_pos rfl,
      Option.some_bind, hq, halfa, Option.map_some']
    rw [arr_smul_one, hx1]
  -- the post-update residual is exactly zero, so the loop exits
  have hnormT : normLt
      (Arr.sub (Arr.sub b phi.val) (Arr.sub b phi.val)) tol = true := by
    simp only [normLt, decide_eq_true_eq]
    refine ⟨htol, ?_⟩
    rw [vecvec_sub_self]
    exact pow_pos htol 2
  obtain ⟨f, hf⟩ : ∃ f, (effMaxIter phi m - 1).toNat = f + 1 :=
    ⟨(effMaxIter phi m - 2).toNat, by omega⟩
  have hrun : cgRun a phi b tol m = some
      ({ phi := { phi with val := b }
         p := { mkP phi with val := Arr.sub b phi.val }
         r := Arr.sub (Arr.sub b phi.val) (Arr.sub b phi.val)
         rho := vec_vec (Arr.sub b phi.val) (Arr.sub b phi.val) }, 1) := by
    rw [cgRun, hf]
    exact cgLoop_exit a tol f 1 _ _ hbody hnormT
  refine ⟨_, hrun, rfl, ?_⟩
  rw [cg, hrun, Option.map_some']

/-- Counterexample to C5 as stated: with the identity-like operator and
the initial guess already equal to the right-hand side, the solve does
not return the right-hand side after one iteration — iteration 1 divides
`0/0` and the run is poisoned (`none`), so the universal claim over every
initial guess fails at this input. -/
theorem c5_counterexample :
    (exPhi 3).val = oneArr 3 ∧
    cg exId (exPhi 3) (oneArr 3) (1/1000) 5 = none := by
  decide

/-- Witness for C5 (amended): on the 1-cell identity system with guess 0
and right-hand side 3, cg converges on iteration 1 to exactly 3. -/
theorem c5_identity_exact_solve_witness :
    ∃ s1, cgRun exId (exPhi 0) (oneArr 3) 1 3 = some (s1, 1) ∧
      s1.phi.val = oneArr 3 ∧
      cg exId (exPhi 0) (oneArr 3) 1 3 = some (oneArr 3, s1.phi) :=
  c5_identity_exact_solve exId (exPhi 0) (oneArr 3) 1 3
    (by decide) (by decide) (by decide) (by decide) (by decide)
    (by decide) (by decide) (by decide) (by decide) (by decide)
    (by decide) (by decide) (by decide) (by decide) (by decide)
    (by decide) (by decide) (by decide)

/-! ### NumPy broadcasting semantics of the residual initialization,
for the shape-mismatch claim -/

/-- NumPy broadcast resolution of one axis: equal extents match, and an
extent of 1 stretches to the other extent; anything else is an error. -/
def bAxis (a b : ℕ) : Option ℕ :=
  if a = b then some a
  else if a = 1 then some b
  else if b = 1 then some a
  else none

/-- A NumPy-style read: an axis of extent 1 repeats its single plane. -/
def npGet (v : Arr) (i j k : ℕ) : ℚ :=
  v.get (if v.nx = 1 then 0 else i) (if v.ny = 1 then 0 else j)
    (if v.nz = 1 then 0 else k)

/-- NumPy elementwise subtraction with broadcasting
(`b[:,:,:] - mat_vec_bnd(a, phi)` on possibly differently-shaped
operands); `none` models the ValueError raised on incompatible shapes. -/
def npSub (x y : Arr) : Option Arr :=
  (bAxis x.nx y.nx).bind (fun nx =>
    (bAxis x.ny y.ny).bind (fun ny =>
      (bAxis x.nz y.nz).map (fun nz =>
        mkArr nx ny nz (fun i j k => npGet x i j k - npGet y i j k))))

/-- NumPy broadcast of an array into a target shape: the sliced
assignment `r[:,:,:] = rhs` into the `zeros(x.shape)` array `r`. -/
def npBroadcastTo (v : Arr) (nx ny nz : ℕ) : Option Arr :=
  if (v.nx = nx ∨ v.nx = 1) ∧ (v.ny = ny ∨ v.ny = 1) ∧
      (v.nz = nz ∨ v.nz = 1) then
    some (mkArr nx ny nz (fun i j k => npGet v i j k))
  else none

/-- cg with the NumPy shape semantics of its residual initialization made
explicit: `r = zeros(x.shape); r[:,:,:] = b[:,:,:] - mat_vec_bnd(a, phi)`
broadcasts a differently-shaped right-hand side silently and only raises
(a generic ValueError, modelled `none`) on broadcast-incompatible shapes;
the iteration loop then runs on the field-shaped residual.  There is no
shape-validation code anywhere in the source of `cg`. -/
def cgNp (a : Matrix) (phi : Unknown) (b : Arr) (tol : ℚ) (maxIter : ℤ) :
    Option (Arr × Unknown) :=
  (npSub b (mat_vec_bnd a phi)).bind (fun rb =>
    (npBroadcastTo rb phi.val.nx phi.val.ny phi.val.nz).bind (fun r0 =>
      (cgLoop a tol (effMaxIter phi maxIter - 1).toNat 1
        { phi := phi, p := mkP phi, r := r0, rho := 0 }).map
        (fun sn => (sn.1.phi.val, sn.1.phi))))

/-- A 2×1×1 array holding two values. -/
def twoArr (p q : ℚ) : Arr := ⟨2, 1, 1, [p, q]⟩

/-- Boundary set of the 2×1×1 example field. -/
def exBS2 : BndSet :=
  ⟨⟨BType.outlet, oneArr 0⟩, ⟨BType.outlet, oneArr 0⟩,
   ⟨BType.outlet, twoArr 0 0⟩, ⟨BType.outlet, twoArr 0 0⟩,
   ⟨BType.outlet, twoArr 0 0⟩, ⟨BType.outlet, twoArr 0 0⟩⟩

/-- A 2×1×1 example unknown with value zero. -/
def exPhi2 : Unknown :=
  ⟨"t2", Pos.C, twoArr 0 0, twoArr 0 0, exBS2, ⟨false, false, false⟩⟩

/-- The 2×1×1 identity-like operator. -/
def exId2 : Matrix :=
  ⟨twoArr 1 1, twoArr 0 0, twoArr 0 0, twoArr 0 0, twoArr 0 0,
   twoArr 0 0, twoArr 0 0⟩

/-- An axis broadcast against a target it matches or stretches to. -/
theorem bAxis_some (x t : ℕ) (h : x = t ∨ x = 1) : bAxis x t = some t := by
  rcases h with h | h
  · subst h; rw [bAxis, if_pos rfl]
  · subst h
    rw [bAxis]
    by_cases h1 : (1 : ℕ) = t
    · rw [if_pos h1, h1]
    · rw [if_neg h1, if_pos rfl]

/-- Claim C8 (amended): cg performs no shape validation of its own.  A
right-hand side whose every axis either matches the field's extent or is
1 — even when the shapes disagree — is silently broadcast by the residual
initialization, and the solve proceeds into its normal iteration loop;
nothing fails fast, and no descriptive ShapeMismatch error exists. -/
theorem c8_no_shape_validation (a : Matrix) (phi : Unknown) (b : Arr)
    (tol : ℚ) (m : ℤ)
    (hx : b.nx = phi.val.nx ∨ b.nx = 1)
    (hy : b.ny = phi.val.ny ∨ b.ny = 1)
    (hz : b.nz = phi.val.nz ∨ b.nz = 1) :
    ∃ rb r0, npSub b (mat_vec_bnd a phi) = some rb ∧
      npBroadcastTo rb phi.val.nx phi.val.ny phi.val.nz = some r0 ∧
      cgNp a phi b tol m =
        (cgLoop a tol (effMaxIter phi m - 1).toNat 1
          { phi := phi, p := mkP phi, r := r0, rho := 0 }).map
          (fun sn => (sn.1.phi.val, sn.1.phi)) := by
  have hsub : npSub b (mat_vec_bnd a phi) = some
      (mkArr phi.val.nx phi.val.ny phi.val.nz
        (fun i j k => npGet b i j k - npGet (mat_vec_bnd a phi) i j k)) := by
    have hmx : (mat_vec_bnd a phi).nx = phi.val.nx := rfl
    have hmy : (mat_vec_bnd a phi).ny = phi.val.ny := rfl
    have hmz : (mat_vec_bnd a phi).nz = phi.val.nz := rfl
    rw [npSub, hmx, hmy, hmz, bAxis_some b.nx phi.val.nx hx,
      Option.some_bind, bAxis_some b.ny phi.val.ny hy, Option.some_bind,
      bAxis_some b.nz phi.val.nz hz, Option.map_some']
  have hbro : npBroadcastTo
      (mkArr phi.val.nx phi.val.ny phi.val.nz
        (fun i j k => npGet b i j k - npGet (mat_vec_bnd a phi) i j k))
      phi.val.nx phi.val.ny phi.val.nz = some
      (mkArr phi.val.nx phi.val.ny phi.val.nz (fun i j k =>
        npGet (mkArr phi.val.nx phi.val.ny phi.val.nz
          (fun i1 j1 k1 =>
            npGet b i1 j1 k1 - npGet (mat_vec_bnd a phi) i1 j1 k1)) i j k)) := by
    rw [npBroadcastTo, if_pos ⟨Or.inl rfl, Or.inl rfl, Or.inl rfl⟩]
  refine ⟨_, _, hsub, hbro, ?_⟩
  rw [cgNp, hsub, Option.some_bind, hbro, Option.some_bind]

/-- Witness for C8 (amended): the shape-(1,1,1) right-hand side 5 against
a 2-cell field broadcasts silently and the solve proceeds. -/
theorem c8_no_shape_validation_witness :
    ∃ rb r0, npSub (oneArr 5) (mat_vec_bnd exId2 exPhi2) = some rb ∧
      npBroadcastTo rb exPhi2.val.nx exPhi2.val.ny exPhi2.val.nz =
        some r0 ∧
      cgNp exId2 exPhi2 (oneArr 5) 0 2 =
        (cgLoop exId2 0 (effMaxIter exPhi2 2 - 1).toNat 1
          { phi := exPhi2, p := mkP exPhi2, r := r0, rho := 0 }).map
          (fun sn => (sn.1.phi.val, sn.1.phi)) :=
  c8_no_shape_validation exId2 exPhi2 (oneArr 5) 0 2
    (by decide) (by decide) (by decide)

/-- Counterexample to C8 as stated: on a right-hand side whose shape
(1,1,1) disagrees with the field's shape (2,1,1), the solve does not fail
fast with any error: it silently broadcasts the right-hand side, runs
its iteration, and returns a normal solution (the stretched solve of
`x = 5` on both cells). -/
theorem c8_counterexample :
    (oneArr 5).nx ≠ exPhi2.val.nx ∧
    (cgNp exId2 exPhi2 (oneArr 5) 0 2).isSome = true ∧
    (cgNp exId2 exPhi2 (oneArr 5) 0 2).map Prod.fst =
      some ⟨2, 1, 1, [5, 5]⟩ := by
  decide

/-! ### The Tecplot export (`src/display/plot/tecplot.py`) -/

/-- Modelled from the spec: `cat_x` (module `pyns.operators`, source not
included) concatenates three arrays along the x axis. -/
def cat_x (p q r : Arr) : Arr :=
  mkArr (p.nx + q.nx + r.nx) q.ny q.nz (fun i j k =>
    if i < p.nx then p.get i j k
    else if i < p.nx + q.nx then q.get (i - p.nx) j k
    else r.get (i - p.nx - q.nx) j k)

/-- Modelled from the spec: concatenation along the y axis. -/
def cat_y (p q r : Arr) : Arr :=
  mkArr q.nx (p.ny + q.ny + r.ny) q.nz (fun i j k =>
    if j < p.ny then p.get i j k
    else if j < p.ny + q.ny then q.get i (j - p.ny) k
    else r.get i (j - p.ny - q.ny) k)

/-- Modelled from the spec: concatenation along the z axis. -/
def cat_z (p q r : Arr) : Arr :=
  mkArr q.nx q.ny (p.nz + q.nz + r.nz) (fun i j k =>
    if k < p.nz then p.get i j k
    else if k < p.nz + q.nz then q.get i j (k - p.nz)
    else r.get i j (k - p.nz - q.nz))

/-- Modelled from the spec: `avg_x` averages adjacent x-planes, bringing
an x-staggered quantity to cell centers. -/
def avg_x (v : Arr) : Arr :=
  mkArr (v.nx - 1) v.ny v.nz (fun i j k =>
    (v.get i j k + v.get (i + 1) j k) / 2)

/-- Modelled from the spec: averaging of adjacent y-planes. -/
def avg_y (v : Arr) : Arr :=
  mkArr v.nx (v.ny - 1) v.nz (fun i j k =>
    (v.get i j k + v.get i (j + 1) k) / 2)

/-- Modelled from the spec: averaging of adjacent z-planes. -/
def avg_z (v : Arr) : Arr :=
  mkArr v.nx v.ny (v.nz - 1) (fun i j k =>
    (v.get i j k + v.get i j (k + 1)) / 2)

/-- The slice `[:1,:,:]`: the first x-plane of an array. -/
def sliceX1 (v : Arr) : Arr := mkArr 1 v.ny v.nz (fun i j k => v.get i j k)

/-- The slice `[:,:1,:]`: the first y-plane of an array. -/
def sliceY1 (v : Arr) : Arr := mkArr v.nx 1 v.nz (fun i j k => v.get i j k)

/-- The slice `[:,:,:1]`: the first z-plane of an array. -/
def sliceZ1 (v : Arr) : Arr := mkArr v.nx v.ny 1 (fun i j k => v.get i j k)

/-- The `key` namedtuple gathered by `tecplot` for each exported
variable: name, position, values and boundary data. -/
structure Key where
  name : String
  pos : Pos
  val : Arr
  bnd : BndSet
deriving DecidableEq, Repr

/-- An unknown enters the export as `key(u.name, u.pos, u.val, u.bnd)`. -/
def keyOfUnknown (u : Unknown) : Key := ⟨u.name, u.pos, u.val, u.bnd⟩

/-- Whether a variable is nodal (`pos == N`) in the export's counting. -/
def isNodal (v : Key) : Bool := v.pos = Pos.N

/-- The data block written for a variable of the cell-centered section
(lines 196-213 of `tecplot.py`): a staggered variable is averaged along
its staggered axis after concatenating the lower boundary-face plane,
the interior values and the upper boundary-face plane; a cell-centered
variable is written as is. -/
def tecCellVal (v : Key) : Arr :=
  match v.pos with
  | Pos.X => avg_x (cat_x (sliceX1 v.bnd.W.val) v.val (sliceX1 v.bnd.E.val))
  | Pos.Y => avg_y (cat_y (sliceY1 v.bnd.S.val) v.val (sliceY1 v.bnd.N.val))
  | Pos.Z => avg_z (cat_z (sliceZ1 v.bnd.B.val) v.val (sliceZ1 v.bnd.T.val))
  | _ => v.val

/-- The observable layout of the exported scene file: the variable names
of the two sections in written order, the `VARLOCATION` ranges (columns
1..varlocNodalHi are tagged NODAL, columns varlocCellLo..varlocCellHi
are tagged CELLCENTERED; columns 1-3 are the coordinates), and the data
blocks of both sections in written order. -/
structure TecFile where
  nodalNames : List String
  cellNames : List String
  varlocNodalHi : ℕ
  varlocCellLo : ℕ
  varlocCellHi : ℕ
  nodalBlocks : List Arr
  cellBlocks : List Arr
deriving Repr

/-- The export's output on a variable list (`tecplot.py` lines 84-213):
nodal variables are counted, named and written first, cell-centered ones
after them; the header tags `[1-(3+c_nod)]=NODAL` and
`[(4+c_nod)-(3+c_nod+c_cel)]=CELLCENTERED`; nodal blocks are the raw
value arrays, cell blocks go through the staggered-to-center
averaging. -/
def tecplotModel (vars : List Key) : TecFile :=
  { nodalNames := (vars.filter isNodal).map Key.name
    cellNames := (vars.filter (fun v => !isNodal v)).map Key.name
    varlocNodalHi := 3 + (vars.filter isNodal).length
    varlocCellLo := 4 + (vars.filter isNodal).length
    varlocCellHi := 3 + (vars.filter isNodal).length +
      (vars.filter (fun v => !isNodal v)).length
    nodalBlocks := (vars.filter isNodal).map Key.val
    cellBlocks := (vars.filter (fun v => !isNodal v)).map tecCellVal }

/-- Claim C9: every staggered variable (position X, Y, or Z) is written
to the cell-centered section as the average, along its staggered axis,
of the lower-face boundary plane, the interior values and the upper-face
boundary plane concatenated along that axis; cell-centered variables are
written unchanged; nodal variables are written first as raw values; and
the header's NODAL range covers exactly the coordinates plus the nodal
variables while the CELLCENTERED range covers exactly the remaining
variables, so each variable is tagged according to its position. -/
theorem c9_staggered_export (vars : List Key) :
    (tecplotModel vars).cellBlocks =
      (vars.filter (fun v => !isNodal v)).map (fun v =>
        if v.pos = Pos.X then
          avg_x (cat_x (sliceX1 v.bnd.W.val) v.val (sliceX1 v.bnd.E.val))
        else if v.pos = Pos.Y then
          avg_y (cat_y (sliceY1 v.bnd.S.val) v.val (sliceY1 v.bnd.N.val))
        else if v.pos = Pos.Z then
          avg_z (cat_z (sliceZ1 v.bnd.B.val) v.val (sliceZ1 v.bnd.T.val))
        else v.val) ∧
    (tecplotModel vars).nodalBlocks = (vars.filter isNodal).map Key.val ∧
    (tecplotModel vars).varlocNodalHi =
      3 + (tecplotModel vars).nodalBlocks.length ∧
    (tecplotModel vars).varlocCellLo = (tecplotModel vars).varlocNodalHi + 1 ∧
    (tecplotModel vars).varlocCellHi =
      (tecplotModel vars).varlocNodalHi +
        (tecplotModel vars).cellBlocks.length ∧
    (∀ v ∈ vars.filter isNodal, v.pos = Pos.N) ∧
    (∀ v ∈ vars.filter (fun v => !isNodal v), v.pos ≠ Pos.N) := by
  refine ⟨?_, rfl, by simp [tecplotModel], by simp [tecplotModel]; omega,
    by simp [tecplotModel], ?_, ?_⟩
  · apply List.map_congr_left
    intro v hv
    have hnn : v.pos ≠ Pos.N := by
      have h2 := (List.mem_filter.mp hv).2
      simpa [isNodal] using h2
    cases hp : v.pos <;> simp_all [tecCellVal]
  · intro v hv
    have h2 := (List.mem_filter.mp hv).2
    simpa [isNodal] using h2
  · intro v hv
    have h2 := (List.mem_filter.mp hv).2
    simpa [isNodal] using h2

/-- Witness for C9: a concrete cell-centered variable is written
unchanged to the cell-centered section and is not nodal. -/
theorem c9_staggered_export_witness :
    (keyOfUnknown (exPhi 0)).pos ≠ Pos.N ∧
    (tecplotModel [keyOfUnknown (exPhi 0)]).cellBlocks =
      [(keyOfUnknown (exPhi 0)).val] := by
  have h := c9_staggered_export [keyOfUnknown (exPhi 0)]
  exact ⟨h.2.2.2.2.2.2 (keyOfUnknown (exPhi 0)) (by decide),
    by rw [h.1]; decide⟩

end PyNS
